import Mathlib

/-!
Verification of the turn-execution engine of the `godmode` backend.

Each definition below is a shallow embedding of a function or code block of
the Python sources under `backend/`.  The relevant files are:

* `backend/agent.py` and `backend/core/agent/agent.py` — `ChatAgent.step`,
  the streaming-chunk accumulator (tool-call fragment accumulation, the
  Ollama JSON-buffering special case, the `stop`-reason fallback parse,
  the error break and the trailing `final_cost` tuple);
* `backend/llm_client.py` and `backend/services/llm.py` —
  `get_llm_response_stream` (request construction, post-stream cost
  calculation, error terminator and the `finally` cost marker);
* `backend/main.py` and `backend/app/main.py` — the WebSocket message
  handlers (`user_message`, `tool_result`, `stop` branches);
* `backend/app/websocket/handler.py` — `run_agent_step_and_send`
  (stop checkpoints, cancellation synthesis, the client-tool wait loop).

JSON parsing (`json.loads`) is external library code; embedded functions
that inspect a parse result take the parsed value (`JVal`) or the parse
function itself as an explicit argument.
-/

namespace Godmode

/-! ## Streaming tool-call fragment accumulation

Embeds the accumulation loop of `ChatAgent.step`
(`backend/agent.py` lines 158–199, identical in
`backend/core/agent/agent.py` lines 214–255). -/

/-- One streamed tool-call fragment (`tc_chunk` in the Python source):
`{index, id?, function.name?, function.arguments?}`. -/
structure ToolCallFragment where
  index : Nat
  id : Option String
  name : Option String
  args : Option String
deriving Repr, DecidableEq

/-- One in-progress accumulation slot, mirroring the dictionary
`{"id": ..., "type": "function", "function": {"name": ..., "arguments": ...}}`
stored in `tool_calls_in_progress[index]`. -/
structure AccToolCall where
  id : Option String
  type : String
  name : String
  arguments : String
deriving Repr, DecidableEq

/-- `tool_calls_in_progress`: a Python dict keyed by the fragment index,
modelled as an association list in insertion order (Python dicts preserve
insertion order, and `list(d.values())` at finalization reads it back in
that order). -/
abbrev ToolMap := List (Nat × AccToolCall)

/-- First-match lookup in the association list. -/
def lookupSlot : ToolMap → Nat → Option AccToolCall
  | [], _ => none
  | (j, s) :: rest, i => if j = i then some s else lookupSlot rest i

/-- In-place update of the slot stored under key `i` (Python mutates the
dict entry, which keeps its position). -/
def updateSlot : ToolMap → Nat → (AccToolCall → AccToolCall) → ToolMap
  | [], _, _ => []
  | (j, s) :: rest, i, f =>
      if j = i then (j, f s) :: rest else (j, s) :: updateSlot rest i f

/-- `tool_calls_in_progress[index]["function"]["arguments"] += arguments`. -/
def argAppend (a : String) (s : AccToolCall) : AccToolCall :=
  { s with arguments := s.arguments ++ a }

/-- Backfill of the function name, guarded by
`not tool_calls_in_progress[index]["function"]["name"]`. -/
def nameBackfill (nm : String) (s : AccToolCall) : AccToolCall :=
  if s.name = "" then { s with name := nm } else s

/-- Processing of one fragment (`agent.py` lines 163–181):
initialize the slot on the first fragment for an index, append any
non-empty `arguments` fragment, and backfill a non-empty `name` only when
the slot's name is still empty. -/
def accumFragment (m : ToolMap) (fr : ToolCallFragment) : ToolMap :=
  let m1 := match lookupSlot m fr.index with
    | none =>
        m ++ [(fr.index,
          { id := fr.id, type := "function", name := fr.name.getD "",
            arguments := "" })]
    | some _ => m
  let m2 := match fr.args with
    | some a => if a ≠ "" then updateSlot m1 fr.index (argAppend a) else m1
    | none => m1
  match fr.name with
  | some nm => if nm ≠ "" then updateSlot m2 fr.index (nameBackfill nm) else m2
  | none => m2

/-- The whole accumulation loop over a fragment sequence. -/
def accumFragments (m : ToolMap) (frs : List ToolCallFragment) : ToolMap :=
  frs.foldl accumFragment m

/-- A finalized, validated tool-call request (spec §3 `ToolCallRequest`). -/
structure ToolCallRequest where
  id : String
  name : String
  arguments : String
deriving Repr, DecidableEq

/-- The validation applied at finalization (`agent.py` lines 195–199):
a call is kept only if `id` is truthy, `type == "function"` and the
function `name` is truthy. -/
def validateCall (c : AccToolCall) : Option ToolCallRequest :=
  match c.id with
  | some i => if i ≠ "" ∧ c.type = "function" ∧ c.name ≠ "" then
      some ⟨i, c.name, c.arguments⟩ else none
  | none => none

/-- `valid_tool_calls` built from `list(tool_calls_in_progress.values())`
(`agent.py` lines 192–199). -/
def finalizeToolCalls (m : ToolMap) : List ToolCallRequest :=
  (m.map Prod.snd).filterMap validateCall

theorem lookupSlot_append_left {m : ToolMap} {i : Nat} {s : AccToolCall}
    (h : lookupSlot m i = some s) (l : ToolMap) :
    lookupSlot (m ++ l) i = some s := by
  induction m with
  | nil => simp [lookupSlot] at h
  | cons p rest ih =>
      obtain ⟨j, t⟩ := p
      simp only [lookupSlot] at h ⊢
      split at h
      · simp_all [lookupSlot, List.cons_append]
      · simp_all [lookupSlot, List.cons_append]

theorem lookupSlot_append_self {m : ToolMap} {i : Nat}
    (h : lookupSlot m i = none) (s : AccToolCall) :
    lookupSlot (m ++ [(i, s)]) i = some s := by
  induction m with
  | nil => simp [lookupSlot]
  | cons p rest ih =>
      obtain ⟨j, t⟩ := p
      simp only [lookupSlot] at h ⊢
      split at h
      · exact absurd h (by simp)
      · simp_all [lookupSlot, List.cons_append]

theorem updateSlot_of_lookup_none {m : ToolMap} {i : Nat}
    (h : lookupSlot m i = none) (f : AccToolCall → AccToolCall) :
    updateSlot m i f = m := by
  induction m with
  | nil => rfl
  | cons p rest ih =>
      obtain ⟨j, t⟩ := p
      simp only [lookupSlot] at h
      split at h
      · exact absurd h (by simp)
      · simp only [updateSlot]
        rw [if_neg (by assumption)]
        simp [ih h]

theorem lookupSlot_updateSlot_self {m : ToolMap} {i : Nat} {s : AccToolCall}
    (h : lookupSlot m i = some s) (f : AccToolCall → AccToolCall) :
    lookupSlot (updateSlot m i f) i = some (f s) := by
  induction m with
  | nil => simp [lookupSlot] at h
  | cons p rest ih =>
      obtain ⟨j, t⟩ := p
      simp only [lookupSlot] at h
      by_cases hj : j = i
      · rw [if_pos hj] at h
        cases h
        simp [updateSlot, lookupSlot, hj]
      · rw [if_neg hj] at h
        simp [updateSlot, lookupSlot, hj, ih h]

theorem lookupSlot_updateSlot_other {m : ToolMap} {i k : Nat}
    (hik : k ≠ i) (f : AccToolCall → AccToolCall) :
    lookupSlot (updateSlot m k f) i = lookupSlot m i := by
  induction m with
  | nil => rfl
  | cons p rest ih =>
      obtain ⟨j, t⟩ := p
      by_cases hj : j = k
      · subst hj
        simp [updateSlot, lookupSlot, hik]
      · simp [updateSlot, lookupSlot, hj, ih]

theorem lookupSlot_append_other {m : ToolMap} {i k : Nat}
    (hik : k ≠ i) (s : AccToolCall) :
    lookupSlot (m ++ [(k, s)]) i = lookupSlot m i := by
  induction m with
  | nil => simp [lookupSlot, hik]
  | cons p rest ih =>
      obtain ⟨j, t⟩ := p
      simp only [List.cons_append, lookupSlot]
      split <;> simp [ih]

theorem argAppend_id (a : String) (s : AccToolCall) : (argAppend a s).id = s.id := rfl

theorem nameBackfill_id (nm : String) (s : AccToolCall) :
    (nameBackfill nm s).id = s.id := by
  unfold nameBackfill
  split <;> rfl

/-- Fragments for other indices leave a slot's lookup untouched. -/
theorem accumFragment_lookup_other {m : ToolMap} {fr : ToolCallFragment} {i : Nat}
    (hik : fr.index ≠ i) :
    lookupSlot (accumFragment m fr) i = lookupSlot m i := by
  unfold accumFragment
  cases hl : lookupSlot m fr.index <;>
  cases ha : fr.args <;>
  cases hn : fr.name <;>
  simp only [] <;>
  · repeat' split
    all_goals
      simp [lookupSlot_updateSlot_other hik, lookupSlot_append_other hik]

/-- Once a slot exists, later fragments never change its `id`:
the accumulation loop only ever appends to `arguments` or backfills `name`. -/
theorem accumFragment_id_stable {m : ToolMap} {i : Nat} {s : AccToolCall}
    (h : lookupSlot m i = some s) (fr : ToolCallFragment) :
    ∃ s', lookupSlot (accumFragment m fr) i = some s' ∧ s'.id = s.id := by
  by_cases hik : fr.index = i
  · subst hik
    unfold accumFragment
    rw [h]
    simp only []
    cases ha : fr.args <;> cases hn : fr.name
    · exact ⟨s, h, rfl⟩
    · rename_i nm
      by_cases hnm : nm = ""
      · simp only [hnm, ne_eq, not_true_eq_false, if_false]
        exact ⟨s, h, rfl⟩
      · simp only [ne_eq, hnm, not_false_eq_true, if_true]
        exact ⟨nameBackfill nm s, lookupSlot_updateSlot_self h _, nameBackfill_id nm s⟩
    · rename_i a
      by_cases haa : a = ""
      · simp only [haa, ne_eq, not_true_eq_false, if_false]
        exact ⟨s, h, rfl⟩
      · simp only [ne_eq, haa, not_false_eq_true, if_true]
        exact ⟨argAppend a s, lookupSlot_updateSlot_self h _, rfl⟩
    · rename_i a nm
      by_cases haa : a = "" <;> by_cases hnm : nm = "" <;>
        simp only [ne_eq, haa, hnm, not_true_eq_false, not_false_eq_true,
          if_true, if_false]
      · exact ⟨s, h, rfl⟩
      · exact ⟨nameBackfill nm s, lookupSlot_updateSlot_self h _, nameBackfill_id nm s⟩
      · exact ⟨argAppend a s, lookupSlot_updateSlot_self h _, rfl⟩
      · refine ⟨nameBackfill nm (argAppend a s),
          ?_, by rw [nameBackfill_id, argAppend_id]⟩
        exact lookupSlot_updateSlot_self (lookupSlot_updateSlot_self h _) _
  · rw [accumFragment_lookup_other hik]
    exact ⟨s, h, rfl⟩

theorem accumFragments_id_stable {m : ToolMap} {i : Nat} {s : AccToolCall}
    (h : lookupSlot m i = some s) (frs : List ToolCallFragment) :
    ∃ s', lookupSlot (accumFragments m frs) i = some s' ∧ s'.id = s.id := by
  induction frs generalizing m s with
  | nil => exact ⟨s, h, rfl⟩
  | cons fr rest ih =>
      obtain ⟨s', hs', hid⟩ := accumFragment_id_stable h fr
      obtain ⟨s'', hs'', hid'⟩ := ih hs'
      exact ⟨s'', hs'', hid'.trans hid⟩

theorem accumFragments_lookup_other {m : ToolMap} {i : Nat}
    {frs : List ToolCallFragment} (h : ∀ fr ∈ frs, fr.index ≠ i) :
    lookupSlot (accumFragments m frs) i = lookupSlot m i := by
  induction frs generalizing m with
  | nil => rfl
  | cons fr rest ih =>
      have h1 := @accumFragment_lookup_other m fr i
        (h fr (List.mem_cons_self _ _))
      have h2 := ih (m := accumFragment m fr)
        (fun g hg => h g (List.mem_cons_of_mem _ hg))
      show lookupSlot (accumFragments (accumFragment m fr) rest) i = lookupSlot m i
      rw [h2, h1]

/-- First fragment for an index (no `arguments` piece): the slot is
initialized as `{id, name-or-empty, arguments: ""}`. -/
theorem accumFragment_fresh {m : ToolMap} {fr : ToolCallFragment}
    (h : lookupSlot m fr.index = none) (ha : fr.args = none) :
    lookupSlot (accumFragment m fr) fr.index =
      some { id := fr.id, type := "function", name := fr.name.getD "",
             arguments := "" } := by
  cases hn : fr.name with
  | none =>
      unfold accumFragment
      rw [h, ha, hn]
      exact lookupSlot_append_self h _
  | some nm =>
      unfold accumFragment
      rw [h, ha, hn]
      simp only [Option.getD_some]
      by_cases hnm : nm = ""
      · simp only [hnm, ne_eq, not_true_eq_false, if_false]
        exact lookupSlot_append_self h _
      · simp only [ne_eq, hnm, not_false_eq_true, if_true]
        have hbase := lookupSlot_append_self h
          (s := { id := fr.id, type := "function", name := nm, arguments := "" })
        rw [lookupSlot_updateSlot_self hbase]
        simp [nameBackfill, hnm]

/-- Later fragment carrying only an `arguments` piece: it is appended to
the slot's `arguments` string. -/
theorem accumFragment_appendArgs {m : ToolMap} {fr : ToolCallFragment}
    {s : AccToolCall} {a : String}
    (h : lookupSlot m fr.index = some s) (ha : fr.args = some a)
    (hn : fr.name = none) :
    lookupSlot (accumFragment m fr) fr.index =
      some { s with arguments := s.arguments ++ a } := by
  unfold accumFragment
  rw [h, ha, hn]
  simp only []
  by_cases haa : a = ""
  · subst haa
    simpa using h
  · simp only [ne_eq, haa, not_false_eq_true, if_true]
    exact lookupSlot_updateSlot_self h (argAppend a)

/-- A non-empty name arriving on a later fragment is backfilled when the
slot's name is still empty. -/
theorem accumFragment_backfillName {m : ToolMap} {fr : ToolCallFragment}
    {s : AccToolCall} {nm : String}
    (h : lookupSlot m fr.index = some s) (hn : fr.name = some nm)
    (hnm : nm ≠ "") (ha : fr.args = none) (hname : s.name = "") :
    lookupSlot (accumFragment m fr) fr.index = some { s with name := nm } := by
  unfold accumFragment
  rw [h, ha, hn]
  simp only [ne_eq, hnm, not_false_eq_true, if_true]
  rw [lookupSlot_updateSlot_self h]
  simp [nameBackfill, hname]

/-- A slot whose name is already non-empty never has it overwritten. -/
theorem accumFragment_name_frozen {m : ToolMap} {fr : ToolCallFragment}
    {s : AccToolCall} (h : lookupSlot m fr.index = some s)
    (hname : s.name ≠ "") :
    ∃ s', lookupSlot (accumFragment m fr) fr.index = some s' ∧
      s'.name = s.name := by
  unfold accumFragment
  rw [h]
  simp only []
  cases ha : fr.args with
  | none =>
      cases hn : fr.name with
      | none => exact ⟨s, h, rfl⟩
      | some nm =>
          by_cases hnm : nm = ""
          · simp only [hnm, ne_eq, not_true_eq_false, if_false]
            exact ⟨s, h, rfl⟩
          · simp only [ne_eq, hnm, not_false_eq_true, if_true]
            refine ⟨nameBackfill nm s, lookupSlot_updateSlot_self h _, ?_⟩
            simp [nameBackfill, hname]
  | some a =>
      by_cases haa : a = ""
      · simp only [haa, ne_eq, not_true_eq_false, if_false]
        cases hn : fr.name with
        | none => exact ⟨s, h, rfl⟩
        | some nm =>
            by_cases hnm : nm = ""
            · simp only [hnm, ne_eq, not_true_eq_false, if_false]
              exact ⟨s, h, rfl⟩
            · simp only [ne_eq, hnm, not_false_eq_true, if_true]
              refine ⟨nameBackfill nm s, lookupSlot_updateSlot_self h _, ?_⟩
              simp [nameBackfill, hname]
      · simp only [ne_eq, haa, not_false_eq_true, if_true]
        have h2 := lookupSlot_updateSlot_self h (argAppend a)
        cases hn : fr.name with
        | none => exact ⟨argAppend a s, h2, rfl⟩
        | some nm =>
            by_cases hnm : nm = ""
            · simp only [hnm, ne_eq, not_true_eq_false, if_false]
              exact ⟨argAppend a s, h2, rfl⟩
            · simp only [ne_eq, hnm, not_false_eq_true, if_true]
              refine ⟨nameBackfill nm (argAppend a s),
                lookupSlot_updateSlot_self h2 _, ?_⟩
              simp [nameBackfill, argAppend, hname]

/-- Creating a fresh slot records the fragment's `id` (possibly `None`);
subsequent same-fragment updates never touch it. -/
theorem accumFragment_fresh_id {m : ToolMap} {fr : ToolCallFragment}
    (h : lookupSlot m fr.index = none) :
    ∃ s', lookupSlot (accumFragment m fr) fr.index = some s' ∧
      s'.id = fr.id := by
  unfold accumFragment
  rw [h]
  simp only []
  have hbase := lookupSlot_append_self h
    (s := { id := fr.id, type := "function", name := fr.name.getD "",
            arguments := "" })
  cases ha : fr.args <;> cases hn : fr.name <;> rw [hn] at hbase <;> simp only []
  case none.none => exact ⟨_, hbase, rfl⟩
  case none.some nm =>
      split
      · exact ⟨_, lookupSlot_updateSlot_self hbase _, nameBackfill_id _ _⟩
      · exact ⟨_, hbase, rfl⟩
  case some.none a =>
      split
      · exact ⟨_, lookupSlot_updateSlot_self hbase _, rfl⟩
      · exact ⟨_, hbase, rfl⟩
  case some.some a nm =>
      split <;> split
      · refine ⟨_, lookupSlot_updateSlot_self (lookupSlot_updateSlot_self hbase _) _, ?_⟩
        rw [nameBackfill_id, argAppend_id]
      · exact ⟨_, lookupSlot_updateSlot_self hbase _, nameBackfill_id _ _⟩
      · exact ⟨_, lookupSlot_updateSlot_self hbase _, rfl⟩
      · exact ⟨_, hbase, rfl⟩

/-- Every association stored under key `i` has id `None`. -/
def IdNoneAt (i : Nat) (m : ToolMap) : Prop :=
  ∀ s : AccToolCall, (i, s) ∈ m → s.id = none

theorem mem_updateSlot {m : ToolMap} {k : Nat} {f : AccToolCall → AccToolCall}
    {j : Nat} {t : AccToolCall} (h : (j, t) ∈ updateSlot m k f) :
    (j, t) ∈ m ∨ ∃ t₀, (j, t₀) ∈ m ∧ t = f t₀ := by
  induction m with
  | nil => simp [updateSlot] at h
  | cons p rest ih =>
      obtain ⟨j', s⟩ := p
      by_cases hj : j' = k
      · subst hj
        simp only [updateSlot, if_pos rfl] at h
        rcases List.mem_cons.1 h with h | h
        · injection h with h1 h2
          subst h1
          exact Or.inr ⟨s, List.mem_cons_self _ _, h2⟩
        · left
          exact List.mem_cons_of_mem _ h
      · simp only [updateSlot, if_neg hj] at h
        rcases List.mem_cons.1 h with h | h
        · left
          rw [h]
          exact List.mem_cons_self _ _
        · rcases ih h with h' | ⟨t₀, ht₀, rfl⟩
          · exact Or.inl (List.mem_cons_of_mem _ h')
          · exact Or.inr ⟨t₀, List.mem_cons_of_mem _ ht₀, rfl⟩

theorem IdNoneAt_updateSlot {m : ToolMap} {k i : Nat}
    {f : AccToolCall → AccToolCall} (hm : IdNoneAt i m)
    (hf : ∀ u, (f u).id = u.id) : IdNoneAt i (updateSlot m k f) := by
  intro s hs
  rcases mem_updateSlot hs with h | ⟨t₀, ht₀, rfl⟩
  · exact hm _ h
  · rw [hf]
    exact hm _ ht₀

theorem IdNoneAt_append {m : ToolMap} {i k : Nat} {s : AccToolCall}
    (hm : IdNoneAt i m) (hs : k = i → s.id = none) :
    IdNoneAt i (m ++ [(k, s)]) := by
  intro t ht
  rcases List.mem_append.1 ht with h | h
  · exact hm _ h
  · have h' : (i, t) = (k, s) := List.mem_singleton.1 h
    injection h' with h1 h2
    rw [h2]
    exact hs h1.symm

theorem accumFragment_IdNoneAt {m : ToolMap} {fr : ToolCallFragment} {i : Nat}
    (hm : IdNoneAt i m)
    (hcase : fr.index = i → lookupSlot m i = none → fr.id = none) :
    IdNoneAt i (accumFragment m fr) := by
  unfold accumFragment
  cases hl : lookupSlot m fr.index with
  | none =>
      have hbase : IdNoneAt i (m ++ [(fr.index,
          { id := fr.id, type := "function", name := fr.name.getD "",
            arguments := "" })]) := by
        apply IdNoneAt_append hm
        intro hk
        exact hcase hk (hk ▸ hl)
      cases ha : fr.args <;> cases hn : fr.name <;> rw [hn] at hbase <;>
        simp only []
      all_goals repeat' split
      all_goals first
        | exact hbase
        | exact IdNoneAt_updateSlot hbase (argAppend_id _)
        | exact IdNoneAt_updateSlot hbase (nameBackfill_id _)
        | exact IdNoneAt_updateSlot
            (IdNoneAt_updateSlot hbase (argAppend_id _)) (nameBackfill_id _)
  | some s0 =>
      cases fr.args <;> cases fr.name <;> simp only []
      all_goals repeat' split
      all_goals first
        | exact hm
        | exact IdNoneAt_updateSlot hm (argAppend_id _)
        | exact IdNoneAt_updateSlot hm (nameBackfill_id _)
        | exact IdNoneAt_updateSlot
            (IdNoneAt_updateSlot hm (argAppend_id _)) (nameBackfill_id _)

/-- Phase 1: while no fragment targets index `i`, `IdNoneAt i` is trivially
preserved. -/
theorem accumFragments_IdNoneAt_other {m : ToolMap} {i : Nat}
    {frs : List ToolCallFragment} (hm : IdNoneAt i m)
    (h : ∀ fr ∈ frs, fr.index ≠ i) :
    IdNoneAt i (accumFragments m frs) := by
  induction frs generalizing m with
  | nil => exact hm
  | cons fr rest ih =>
      show IdNoneAt i (accumFragments (accumFragment m fr) rest)
      exact ih (accumFragment_IdNoneAt hm
          (fun hk => absurd hk (h fr (List.mem_cons_self _ _))))
        (fun g hg => h g (List.mem_cons_of_mem _ hg))

/-- Phase 2: once the slot for `i` exists, `IdNoneAt i` is preserved by any
further fragments (ids are never backfilled). -/
theorem accumFragments_IdNoneAt_stable {m : ToolMap} {i : Nat}
    {s : AccToolCall} {frs : List ToolCallFragment}
    (hm : IdNoneAt i m) (hex : lookupSlot m i = some s) :
    IdNoneAt i (accumFragments m frs) := by
  induction frs generalizing m s with
  | nil => exact hm
  | cons fr rest ih =>
      obtain ⟨s', hs', _⟩ := accumFragment_id_stable hex fr
      show IdNoneAt i (accumFragments (accumFragment m fr) rest)
      exact ih (accumFragment_IdNoneAt hm
        (fun _ hnone => absurd hnone (by simp [hex]))) hs'

/-- Entries whose slot fails validation contribute nothing to the finalized
list: dropping them leaves `finalizeToolCalls` unchanged. -/
theorem finalize_filter_of_invalid {m : ToolMap} {i : Nat}
    (h : ∀ s : AccToolCall, (i, s) ∈ m → validateCall s = none) :
    finalizeToolCalls m =
      finalizeToolCalls (m.filter (fun p => p.1 != i)) := by
  induction m with
  | nil => rfl
  | cons p rest ih =>
      obtain ⟨j, s⟩ := p
      have hrest := ih (fun t ht => h t (List.mem_cons_of_mem _ ht))
      by_cases hj : j = i
      · subst hj
        have hv := h s (List.mem_cons_self _ _)
        simp only [finalizeToolCalls, List.map_cons, List.filterMap_cons, hv,
          List.filter_cons, bne_self_eq_false, Bool.false_eq_true, if_false]
        exact hrest
      · have hfil : ((j, s) :: rest).filter (fun p => p.1 != i) =
            (j, s) :: rest.filter (fun p => p.1 != i) := by
          simp [List.filter_cons, hj]
        rw [hfil]
        simp only [finalizeToolCalls, List.map_cons, List.filterMap_cons]
        cases validateCall s with
        | none => exact hrest
        | some v => exact congrArg (fun l => v :: l) hrest

/-- **C1.** For every streamed sequence of tool-call fragments keyed by an
integer index, the accumulator initializes a slot
`{id, name-or-empty, arguments: ""}` on the first fragment for that index,
appends every subsequent `arguments_fragment` for that index to the slot's
`arguments` string, and backfills the name from a later fragment only when
the slot's name is still empty; in particular, the fragment sequence
`[{index:0,id:"a",name:"f"}, {index:0,arguments_fragment:"{\"x\":"},
{index:0,arguments_fragment:"1}"}]` yields exactly one finalized
ToolCallRequest `{id:"a", name:"f", arguments:"{\"x\":1}"}`. -/
theorem toolcall_fragment_accumulation_C1 :
    (∀ (m : ToolMap) (fr : ToolCallFragment),
      lookupSlot m fr.index = none → fr.args = none →
      lookupSlot (accumFragment m fr) fr.index =
        some { id := fr.id, type := "function", name := fr.name.getD "",
               arguments := "" })
  ∧ (∀ (m : ToolMap) (fr : ToolCallFragment) (s : AccToolCall) (a : String),
      lookupSlot m fr.index = some s → fr.args = some a → fr.name = none →
      lookupSlot (accumFragment m fr) fr.index =
        some { s with arguments := s.arguments ++ a })
  ∧ (∀ (m : ToolMap) (fr : ToolCallFragment) (s : AccToolCall) (nm : String),
      lookupSlot m fr.index = some s → fr.name = some nm → nm ≠ "" →
      fr.args = none → s.name = "" →
      lookupSlot (accumFragment m fr) fr.index = some { s with name := nm })
  ∧ (∀ (m : ToolMap) (fr : ToolCallFragment) (s : AccToolCall),
      lookupSlot m fr.index = some s → s.name ≠ "" →
      ∃ s', lookupSlot (accumFragment m fr) fr.index = some s' ∧
        s'.name = s.name)
  ∧ finalizeToolCalls (accumFragments []
      [⟨0, some "a", some "f", none⟩,
       ⟨0, none, none, some "\x7b\"x\":"⟩,
       ⟨0, none, none, some "1\x7d"⟩]) =
      [{ id := "a", name := "f", arguments := "\x7b\"x\":1\x7d" }] :=
  ⟨fun _ _ h ha => accumFragment_fresh h ha,
   fun _ _ _ _ h ha hn => accumFragment_appendArgs h ha hn,
   fun _ _ _ _ h hn hnm ha hname =>
     accumFragment_backfillName h hn hnm ha hname,
   fun _ _ _ h hname => accumFragment_name_frozen h hname,
   by decide⟩

/-- Closed instance of `toolcall_fragment_accumulation_C1`, discharging each
hypothesis at a concrete input. -/
theorem toolcall_fragment_accumulation_C1_witness :
    (lookupSlot (accumFragment [] ⟨0, some "a", some "f", none⟩) 0 =
      some { id := some "a", type := "function", name := "f",
             arguments := "" })
  ∧ (lookupSlot (accumFragment
        [(0, { id := some "a", type := "function", name := "f",
               arguments := "" })] ⟨0, none, none, some "xy"⟩) 0 =
      some { id := some "a", type := "function", name := "f",
             arguments := "xy" })
  ∧ (lookupSlot (accumFragment
        [(0, { id := some "a", type := "function", name := "",
               arguments := "" })] ⟨0, none, some "g", none⟩) 0 =
      some { id := some "a", type := "function", name := "g",
             arguments := "" })
  ∧ (∃ s', lookupSlot (accumFragment
        [(0, { id := some "a", type := "function", name := "f",
               arguments := "" })] ⟨0, none, some "g", none⟩) 0 = some s' ∧
      s'.name = "f") :=
  ⟨toolcall_fragment_accumulation_C1.1 [] ⟨0, some "a", some "f", none⟩ rfl rfl,
   toolcall_fragment_accumulation_C1.2.1
     [(0, { id := some "a", type := "function", name := "f", arguments := "" })]
     ⟨0, none, none, some "xy"⟩
     { id := some "a", type := "function", name := "f", arguments := "" }
     "xy" rfl rfl rfl,
   toolcall_fragment_accumulation_C1.2.2.1
     [(0, { id := some "a", type := "function", name := "", arguments := "" })]
     ⟨0, none, some "g", none⟩
     { id := some "a", type := "function", name := "", arguments := "" }
     "g" rfl rfl (by decide) rfl rfl,
   toolcall_fragment_accumulation_C1.2.2.2.1
     [(0, { id := some "a", type := "function", name := "f", arguments := "" })]
     ⟨0, none, some "g", none⟩
     { id := some "a", type := "function", name := "f", arguments := "" }
     rfl (by decide)⟩

/-- **C10.** For every fragment sequence in which the first fragment for a
given index carries no id and a non-empty id arrives only in a later
fragment for that same index, the accumulator never backfills the id (only
the name is backfilled), so at finalization that slot fails the
non-empty-id validation and is dropped, yielding no ToolCallRequest for
that index. -/
theorem toolcall_no_id_backfill_C10
    (fs₁ fs₂ : List ToolCallFragment) (fr : ToolCallFragment)
    (hidx : ∀ g ∈ fs₁, g.index ≠ fr.index) (hid : fr.id = none) :
    ∃ s, lookupSlot (accumFragments [] (fs₁ ++ fr :: fs₂)) fr.index = some s ∧
      s.id = none ∧ validateCall s = none ∧
      finalizeToolCalls (accumFragments [] (fs₁ ++ fr :: fs₂)) =
        finalizeToolCalls ((accumFragments [] (fs₁ ++ fr :: fs₂)).filter
          (fun p => p.1 != fr.index)) := by
  have hM1 : lookupSlot (accumFragments [] fs₁) fr.index = none := by
    rw [accumFragments_lookup_other hidx]
    rfl
  obtain ⟨s₀, hs₀, hs₀id⟩ := accumFragment_fresh_id hM1
  have hsplit : accumFragments [] (fs₁ ++ fr :: fs₂) =
      accumFragments (accumFragment (accumFragments [] fs₁) fr) fs₂ := by
    simp [accumFragments, List.foldl_append]
  obtain ⟨s, hs, hsid⟩ := accumFragments_id_stable hs₀ fs₂
  have hP0 : IdNoneAt fr.index ([] : ToolMap) :=
    fun t ht => absurd ht (List.not_mem_nil _)
  have hP1 := accumFragments_IdNoneAt_other hP0 hidx
  have hP2 : IdNoneAt fr.index (accumFragment (accumFragments [] fs₁) fr) :=
    accumFragment_IdNoneAt hP1 (fun _ _ => hid)
  have hP3 := @accumFragments_IdNoneAt_stable _ fr.index _ fs₂ hP2 hs₀
  have hid_s : s.id = none := by rw [hsid, hs₀id, hid]
  rw [hsplit]
  refine ⟨s, hs, hid_s, by simp [validateCall, hid_s], ?_⟩
  exact finalize_filter_of_invalid (fun t ht => by
    have := hP3 t ht
    simp [validateCall, this])

/-- Closed instance of `toolcall_no_id_backfill_C10`: index 0's first
fragment carries no id, a later fragment carries one, and no request is
finalized for that slot. -/
theorem toolcall_no_id_backfill_C10_witness :
    ∃ s, lookupSlot (accumFragments []
        ([] ++ (⟨0, none, some "f", some "x"⟩ : ToolCallFragment) ::
          [⟨0, some "late", none, none⟩])) 0 = some s ∧
      s.id = none ∧ validateCall s = none ∧
      finalizeToolCalls (accumFragments []
        ([] ++ (⟨0, none, some "f", some "x"⟩ : ToolCallFragment) ::
          [⟨0, some "late", none, none⟩])) =
      finalizeToolCalls ((accumFragments []
        ([] ++ (⟨0, none, some "f", some "x"⟩ : ToolCallFragment) ::
          [⟨0, some "late", none, none⟩])).filter (fun p => p.1 != 0)) :=
  toolcall_no_id_backfill_C10 [] [⟨0, some "late", none, none⟩]
    ⟨0, none, some "f", some "x"⟩
    (fun _ hg => absurd hg (List.not_mem_nil _)) rfl

/-! ## Model-stream request construction

Embeds the keyword arguments passed to `litellm.acompletion` by
`get_llm_response_stream` (`backend/services/llm.py` lines 21–64; the older
`backend/llm_client.py` lines 28–37 passes the same tool-selection
arguments, with its `parallel_tool_calls=False` line commented out). -/

/-- The request sent to the streaming provider.  `messages`, `tools` and
the session API key are opaque payloads; the fields below are the ones the
source sets explicitly.  There is no `parallel_tool_calls` entry in either
source file (in `llm_client.py` the line is commented out), so that field
is `none`. -/
structure AcompletionRequest where
  model : String
  temperature : ℚ
  stream : Bool
  include_usage : Bool
  max_tokens : Option Nat
  tool_choice : String
  parallel_tool_calls : Option Bool
  api_base : Option String
deriving Repr, DecidableEq

/-- `stream_kwargs` plus the extra keyword arguments of the
`litellm.acompletion(...)` call. -/
def buildAcompletionRequest (modelName : String) (temperature : ℚ)
    (maxTokens : Option Nat) : AcompletionRequest :=
  { model := modelName,
    temperature := temperature,
    stream := true,
    include_usage := true,
    max_tokens := maxTokens,
    tool_choice := "auto",
    parallel_tool_calls := none,
    api_base := if modelName.startsWith "ollama/" then
        some "http://localhost:11434" else none }

/-- **C2 (counterexample).** The claim says every model-stream request
constrains tool selection to at most one tool call (parallel tool calls
disallowed); in fact the request carries no `parallel_tool_calls`
constraint at all — the disabling argument is absent (commented out in
`llm_client.py`), so nothing in the request forbids parallel tool calls. -/
theorem llm_request_parallel_unconstrained_C2_counterexample :
    (buildAcompletionRequest "gpt-4.1-mini" (7/10) none).parallel_tool_calls
      = none ∧
    ((buildAcompletionRequest "gpt-4.1-mini" (7/10) none).parallel_tool_calls
      == some false) = false :=
  ⟨rfl, rfl⟩

/-- **C2 (amended).** For every model-stream invocation, the request sets
`tool_choice` to `"auto"` and contains no `parallel_tool_calls` entry:
tool selection is left to the provider and is not restricted to at most
one tool call per response at the request level. -/
theorem llm_request_tool_choice_auto_C2 (modelName : String)
    (temperature : ℚ) (maxTokens : Option Nat) :
    (buildAcompletionRequest modelName temperature maxTokens).tool_choice
        = "auto" ∧
    (buildAcompletionRequest modelName temperature maxTokens).stream = true ∧
    (buildAcompletionRequest modelName temperature
        maxTokens).parallel_tool_calls = none :=
  ⟨rfl, rfl, rfl⟩

/-! ## Conversation messages

Embeds `MessageDict` and `ChatAgent.add_message_to_memory`
(`backend/core/agent/agent.py` lines 21–25 and 111–128, identical in
`backend/agent.py`).  Multimodal content parts are abstracted to an opaque
string; absent fields are `none` / `[]`. -/

/-- One conversation message. -/
structure Msg where
  role : String
  content : Option String
  tool_calls : List ToolCallRequest
  tool_call_id : Option String
deriving Repr, DecidableEq

/-- `ChatAgent.add_message_to_memory`: appends the message, defaulting a
tool-result's content to `""` when absent. -/
def addMessageToMemory (mem : List Msg) (role : String)
    (content : Option String) (toolCalls : List ToolCallRequest)
    (toolCallId : Option String) : List Msg :=
  let content' := if toolCallId.isSome ∧ content = none then some "" else content
  mem ++ [{ role := role, content := content', tool_calls := toolCalls,
            tool_call_id := toolCallId }]

/-- Outbound events on the WebSocket (spec §6). -/
inductive OutEvent
| chunk (content : String)
| toolCallRequestEv (calls : List ToolCallRequest)
| askUserRequest (question : String)
| terminateRequest (reason : String)
| costUpdate (c : ℚ)
| errorEv (content : String)
| info (content : String)
| endEv
deriving Repr, DecidableEq

/-! ## Stop checkpoint and cancellation synthesis

Embeds the stop check of `run_agent_step_and_send`
(`backend/app/websocket/handler.py` lines 34–57): when
`connection_state["stop_requested"]` is observed, synthesize cancellation
tool-results for the most recent assistant message's unanswered tool
calls, send `info` and `end`, and return `(True, cost)` without any
further agent step. -/

/-- The cancellation content synthesized by the handler
(`handler.py` lines 44 and 170). -/
def cancellationContent : String :=
  "Tool execution cancelled: Operation interrupted by user"

/-- `for msg in reversed(agent.memory): if assistant and tool_calls: ... break`. -/
def lastAssistantWithToolCalls (mem : List Msg) : Option Msg :=
  mem.reverse.find? (fun m => m.role == "assistant" && !m.tool_calls.isEmpty)

/-- `any(m.get("tool_call_id") == tool_id for m in agent.memory
if m.get("role") == "tool")`. -/
def hasToolResult (mem : List Msg) (tid : String) : Bool :=
  mem.any (fun m => m.role == "tool" && m.tool_call_id == some tid)

/-- The cancellation loop (`handler.py` lines 38–50): for each tool call of
the most recent assistant message with tool calls, append a cancellation
tool-result unless a result for that id is already present (the membership
check runs against the growing memory). -/
def synthCancellations (mem : List Msg) : List Msg :=
  match lastAssistantWithToolCalls mem with
  | none => mem
  | some amsg =>
      amsg.tool_calls.foldl (fun acc tc =>
        if hasToolResult acc tc.id then acc
        else addMessageToMemory acc "tool" (some cancellationContent) []
          (some tc.id)) mem

/-- The whole stop checkpoint: new memory, outbound events, and the
`finished` flag returned to the WebSocket loop (`True`: the turn ends here
and no further model invocation happens for this external input). -/
def stopCheckpointHandler (mem : List Msg) :
    List Msg × List OutEvent × Bool :=
  (synthCancellations mem,
   [OutEvent.info "Operation stopped by user request.", OutEvent.endEv],
   true)

theorem hasToolResult_append_mono {mem : List Msg} {tid : String}
    (h : hasToolResult mem tid = true) (l : List Msg) :
    hasToolResult (mem ++ l) tid = true := by
  simp only [hasToolResult, List.any_append, Bool.or_eq_true]
  exact Or.inl h

theorem hasToolResult_addCancellation (mem : List Msg) (tid : String) :
    hasToolResult (addMessageToMemory mem "tool" (some cancellationContent)
      [] (some tid)) tid = true := by
  simp [hasToolResult, addMessageToMemory]

/-- After the cancellation fold, every tool call in the list has a result. -/
theorem cancelFold_covers (tcs : List ToolCallRequest) (mem : List Msg) :
    ∀ tc ∈ tcs, hasToolResult (tcs.foldl (fun acc tc =>
      if hasToolResult acc tc.id then acc
      else addMessageToMemory acc "tool" (some cancellationContent) []
        (some tc.id)) mem) tc.id = true := by
  induction tcs generalizing mem with
  | nil => intro tc h; exact absurd h (List.not_mem_nil _)
  | cons tc0 rest ih =>
      intro tc htc
      simp only [List.foldl_cons]
      rcases List.mem_cons.1 htc with rfl | hmem
      · -- the head is covered after the first step, and coverage is
        -- monotone under the remaining folds
        have hstep : hasToolResult (if hasToolResult mem tc.id then mem
            else addMessageToMemory mem "tool" (some cancellationContent) []
              (some tc.id)) tc.id = true := by
          split
          · assumption
          · exact hasToolResult_addCancellation mem tc.id
        -- the rest of the fold only appends messages
        have hmono : ∀ (l : List ToolCallRequest) (m : List Msg),
            hasToolResult m tc.id = true →
            hasToolResult (l.foldl (fun acc tc =>
              if hasToolResult acc tc.id then acc
              else addMessageToMemory acc "tool" (some cancellationContent) []
                (some tc.id)) m) tc.id = true := by
          intro l
          induction l with
          | nil => intro m hm; exact hm
          | cons x xs ihx =>
              intro m hm
              simp only [List.foldl_cons]
              apply ihx
              split
              · exact hm
              · exact hasToolResult_append_mono hm _
        exact hmono rest _ hstep
      · exact ih _ tc hmem

/-- **C5 (counterexample).** The claim says the synthesized cancellation
tool-result carries content `"Operation cancelled by user"`; the handler
actually writes `"Tool execution cancelled: Operation interrupted by
user"`.  On a memory whose last assistant message has one unanswered tool
call, the appended result's content differs from the claimed string. -/
theorem stop_cancellation_content_C5_counterexample :
    (stopCheckpointHandler
      [{ role := "system", content := some "sys", tool_calls := [],
         tool_call_id := none },
       { role := "assistant", content := none,
         tool_calls := [{ id := "call_1", name := "run_bash_command",
                          arguments := "" }], tool_call_id := none }]).1 =
      [{ role := "system", content := some "sys", tool_calls := [],
         tool_call_id := none },
       { role := "assistant", content := none,
         tool_calls := [{ id := "call_1", name := "run_bash_command",
                          arguments := "" }], tool_call_id := none },
       { role := "tool", content := some cancellationContent,
         tool_calls := [], tool_call_id := some "call_1" }] ∧
    (cancellationContent == "Operation cancelled by user") = false := by
  constructor
  · rfl
  · rfl

/-- **C5 (amended).** Whenever the stop flag is observed at the handler's
checkpoint, the engine synthesizes a cancellation tool-result — with
content `"Tool execution cancelled: Operation interrupted by user"` — for
every tool call of the most recent assistant message that has no
tool-result yet, surfaces an `info` signal followed by `end`, and finishes
the turn without any further model invocation. -/
theorem stop_checkpoint_cancels_C5 (mem : List Msg) :
    (∀ amsg, lastAssistantWithToolCalls mem = some amsg →
      ∀ tc ∈ amsg.tool_calls,
        hasToolResult (stopCheckpointHandler mem).1 tc.id = true) ∧
    (stopCheckpointHandler mem).2.1 =
      [OutEvent.info "Operation stopped by user request.", OutEvent.endEv] ∧
    (stopCheckpointHandler mem).2.2 = true := by
  refine ⟨?_, rfl, rfl⟩
  intro amsg hfind tc htc
  show hasToolResult (synthCancellations mem) tc.id = true
  unfold synthCancellations
  rw [hfind]
  exact cancelFold_covers amsg.tool_calls mem tc htc

/-- Closed instance of `stop_checkpoint_cancels_C5` on a memory with one
unanswered tool call. -/
theorem stop_checkpoint_cancels_C5_witness :
    hasToolResult (stopCheckpointHandler
      [{ role := "assistant", content := none,
         tool_calls := [{ id := "call_9", name := "read_file",
                          arguments := "" }], tool_call_id := none }]).1
      "call_9" = true :=
  (stop_checkpoint_cancels_C5
    [{ role := "assistant", content := none,
       tool_calls := [{ id := "call_9", name := "read_file",
                        arguments := "" }], tool_call_id := none }]).1
    { role := "assistant", content := none,
      tool_calls := [{ id := "call_9", name := "read_file",
                       arguments := "" }], tool_call_id := none }
    (by decide)
    { id := "call_9", name := "read_file", arguments := "" }
    (List.mem_cons_self _ _)

/-! ## JSON values

`json.loads` is external library code; embedded functions that inspect a
parse result take the parsed value (or the parse function) as an explicit
argument.  `JVal` is the usual JSON value type; `jTruthy` is Python
truthiness of the corresponding Python value. -/

inductive JVal where
| null
| bool (b : Bool)
| num (q : ℚ)
| str (s : String)
| arr (xs : List JVal)
| obj (kvs : List (String × JVal))
deriving Repr

/-- Python truthiness of a decoded JSON value. -/
def jTruthy : JVal → Bool
  | .null => false
  | .bool b => b
  | .num q => q ≠ 0
  | .str s => s ≠ ""
  | .arr xs => !xs.isEmpty
  | .obj kvs => !kvs.isEmpty

/-- `d.get(k)` on a decoded JSON object (first binding wins). -/
def jGet (j : JVal) (k : String) : Option JVal :=
  match j with
  | .obj kvs => (kvs.find? (fun p => p.1 == k)).map Prod.snd
  | _ => none

/-- `d.get(k, "")` for a string-valued field. -/
def jGetStr (j : JVal) (k : String) : String :=
  match jGet j k with
  | some (.str s) => s
  | _ => ""

/-- `isinstance(v, dict)` on a decoded JSON value. -/
def jIsObj : JVal → Bool
  | .obj _ => true
  | _ => false

/-! ## ask_user flow control

Embeds the `ask_user` branch of `run_agent_step_and_send`
(`backend/main.py` lines 118–128; equivalent branch in
`backend/app/websocket/handler.py` lines 90–97) and the `user_message`
branch of `websocket_endpoint` (`backend/main.py` lines 222–231).
Multimodal/user-context content preparation is abstracted to the plain
text; `argsParsed` is the result of `json.loads(arguments)`. -/

/-- The `ask_user` branch: record the call id as the pending clarification
marker (only a truthy id is recorded), surface `ask_user_request` with the
question, and finish the turn (`return True, ...` / `break` into the
`first_tool_name == "ask_user"` arm). -/
def handleAskUserBranch (pending : Option String) (callId : String)
    (argsParsed : JVal) : Option String × List OutEvent × Bool :=
  ((if callId ≠ "" then some callId else pending),
   [OutEvent.askUserRequest (jGetStr argsParsed "question")], true)

/-- The `user_message` branch: while a pending ask_user id is recorded the
incoming text is appended as a `tool` message carrying that id and the
marker is cleared; otherwise it is appended as a `user` message. -/
def handleUserMessage (mem : List Msg) (pending : Option String)
    (text : String) : List Msg × Option String :=
  match pending with
  | some tid => (addMessageToMemory mem "tool" (some text) [] (some tid), none)
  | none => (addMessageToMemory mem "user" (some text) [] none, none)

/-- **C6.** When the model requests the `ask_user` flow-control tool, the
engine records that request's id as the session's pending clarification
marker, surfaces an `ask_user_request` with the question, and ends the
turn; the next plain `user_message` is then appended to the conversation
as a tool-result message carrying that recorded id (not as a user
message), and the marker is cleared. -/
theorem ask_user_flow_C6 (pending : Option String) (callId : String)
    (argsParsed : JVal) (mem : List Msg) (text : String)
    (hid : callId ≠ "") :
    (handleAskUserBranch pending callId argsParsed).1 = some callId ∧
    (handleAskUserBranch pending callId argsParsed).2.1 =
      [OutEvent.askUserRequest (jGetStr argsParsed "question")] ∧
    (handleAskUserBranch pending callId argsParsed).2.2 = true ∧
    (handleUserMessage mem (some callId) text).1 =
      mem ++ [{ role := "tool", content := some text, tool_calls := [],
                tool_call_id := some callId }] ∧
    (handleUserMessage mem (some callId) text).2 = none := by
  refine ⟨?_, rfl, rfl, ?_, rfl⟩
  · simp [handleAskUserBranch, hid]
  · simp [handleUserMessage, addMessageToMemory]

/-- Closed instance of `ask_user_flow_C6`. -/
theorem ask_user_flow_C6_witness :
    (handleAskUserBranch none "call_7"
      (JVal.obj [("question", JVal.str "Which directory?")])).1 =
        some "call_7" ∧
    (handleAskUserBranch none "call_7"
      (JVal.obj [("question", JVal.str "Which directory?")])).2.1 =
      [OutEvent.askUserRequest (jGetStr
        (JVal.obj [("question", JVal.str "Which directory?")]) "question")] ∧
    (handleAskUserBranch none "call_7"
      (JVal.obj [("question", JVal.str "Which directory?")])).2.2 = true ∧
    (handleUserMessage [] (some "call_7") "the one called src").1 =
      [] ++ [{ role := "tool", content := some "the one called src",
               tool_calls := [], tool_call_id := some "call_7" }] ∧
    (handleUserMessage [] (some "call_7") "the one called src").2 = none :=
  ask_user_flow_C6 none "call_7"
    (JVal.obj [("question", JVal.str "Which directory?")])
    [] "the one called src" (by decide)

/-! ## Text-delta processing and the Ollama JSON-buffering special case

Embeds the content-delta branch of `ChatAgent.step`
(`backend/agent.py` lines 139–156): text is appended to
`response_content`; for an `ollama/` model it is also appended to
`buffered_content`, the `looks_like_json` flag latches once the trimmed
buffer starts with `{`, and the delta is yielded live only while the flag
is unset. -/

/-- `str.strip()`: drop leading whitespace characters. -/
def dropLeadingWS : List Char → List Char
  | [] => []
  | c :: cs => if c.isWhitespace then dropLeadingWS cs else c :: cs

/-- `str.strip()` over both ends, on the character list of the string. -/
def pyStrip (s : String) : String :=
  ⟨(dropLeadingWS (dropLeadingWS s.data).reverse).reverse⟩

/-- `str.startswith(prefix)`. -/
def pyStartsWith (s pre : String) : Bool :=
  pre.data.isPrefixOf s.data

/-- The engine-local text accumulation state of one `step` call. -/
structure StreamTextState where
  responseContent : String
  bufferedContent : String
  looksLikeJson : Bool
deriving Repr, DecidableEq

def initTextState : StreamTextState :=
  { responseContent := "", bufferedContent := "", looksLikeJson := false }

/-- Processing of one content delta; the returned option is the delta
yielded live, if any.  Empty deltas are skipped (`if delta and
delta.content:`).  In the source the flag update is `if not looks_like_json
and buffered.strip().startswith("{"): looks_like_json = True`, which is the
same as the disjunction below. -/
def processContentDelta (isOllama : Bool) (st : StreamTextState)
    (d : String) : StreamTextState × Option String :=
  if d = "" then (st, none)
  else
    let rc := st.responseContent ++ d
    if isOllama then
      let buf := st.bufferedContent ++ d
      let looks := st.looksLikeJson || pyStartsWith (pyStrip buf) "\x7b"
      ({ responseContent := rc, bufferedContent := buf,
         looksLikeJson := looks },
       if looks then none else some d)
    else
      ({ st with responseContent := rc }, some d)

/-- Folding `processContentDelta` over a delta sequence, collecting the
live yields in order. -/
def processDeltas (isOllama : Bool) (st : StreamTextState)
    (ds : List String) : StreamTextState × List String :=
  ds.foldl (fun acc d =>
    let (st', y) := processContentDelta isOllama acc.1 d
    (st', acc.2 ++ y.toList)) (st, [])

/-- The structural check of the `stop`-reason fallback
(`agent.py` lines 232–234): `isinstance(parsed, dict)`, truthy
`parsed.get("name")`, and `isinstance(parsed.get("arguments"), dict)`. -/
def isCodeToolCallShape (p : JVal) : Bool :=
  jIsObj p && jTruthy ((jGet p "name").getD JVal.null) &&
    jIsObj ((jGet p "arguments").getD JVal.null)

/-- The shape named by the spec sentence: the buffered text parses as
`{name: string, arguments: object|string}`.  This definition follows the
spec's words, for comparison against `isCodeToolCallShape`, which follows
the source. -/
def specToolCallShape (p : JVal) : Bool :=
  jIsObj p &&
  (match jGet p "name" with
   | some (JVal.str _) => true
   | _ => false) &&
  (match jGet p "arguments" with
   | some (JVal.obj _) => true
   | some (JVal.str _) => true
   | _ => false)

/-- Items yielded by `ChatAgent.step` to the WebSocket handler. -/
inductive AgentOut where
| contentDelta (s : String)
| toolCallRequestOut (calls : List ToolCallRequest)
| fallbackToolCallRequest (nameVal : JVal) (argumentsVal : JVal)
| errorOut (content : String)
| finalCostOut (c : ℚ)
deriving Repr

/-- The yields of the `stop`-reason branch (`agent.py` lines 224–288):
try to parse the full text as a tool call; on the code's structural check
emit a fallback tool-call request (the generated id and the re-serialized
arguments string are abstracted to the parsed name/arguments values);
otherwise, if buffering was active, deliver the whole buffer as ordinary
content.  `parse` is `json.loads` on the stripped text (`none` = raise
`JSONDecodeError`). -/
def stopReasonFinalize (isOllama : Bool) (parse : String → Option JVal)
    (st : StreamTextState) : List AgentOut :=
  let bufferedYield : List AgentOut :=
    if isOllama && st.looksLikeJson then
      [AgentOut.contentDelta st.bufferedContent]
    else []
  if st.responseContent ≠ "" then
    match parse (pyStrip st.responseContent) with
    | some p =>
        if isCodeToolCallShape p then
          [AgentOut.fallbackToolCallRequest ((jGet p "name").getD JVal.null)
            ((jGet p "arguments").getD JVal.null)]
        else bufferedYield
    | none => bufferedYield
  else bufferedYield

/-- **C4 (counterexample).** The claim says a buffer parsing as
`{name: string, arguments: object|string}` is treated as a tool-call
request; but the source accepts only a dict for `arguments`
(`isinstance(parsed_content.get("arguments"), dict)`), so a string-valued
`arguments` — which satisfies the claimed shape — is delivered as
ordinary content instead. -/
theorem ollama_fallback_C4_counterexample :
    specToolCallShape
      (JVal.obj [("name", JVal.str "f"), ("arguments", JVal.str "x")])
      = true ∧
    stopReasonFinalize true
      (fun _ => some (JVal.obj
        [("name", JVal.str "f"), ("arguments", JVal.str "x")]))
      { responseContent := "resp", bufferedContent := "resp",
        looksLikeJson := true } =
      [AgentOut.contentDelta "resp"] :=
  ⟨rfl, rfl⟩

/-- **C4 (amended).** For a provider detected (by the `ollama/` model-name
prefix) as lacking structured tool calls: once the buffered text prefix,
after trimming whitespace, starts with `{`, no further text deltas are
streamed live for that turn; and at stream end with terminal reason
`stop`, if the buffered text fails the source's structural check — a JSON
object with a truthy `name` and an **object**-valued `arguments` — the
entire buffer is delivered to the caller as ordinary content, while if it
passes that check it is treated as a tool-call request. -/
theorem ollama_buffering_C4 :
    (∀ (st : StreamTextState) (ds : List String),
      st.looksLikeJson = true →
      (processDeltas true st ds).2 = []) ∧
    (∀ (st : StreamTextState) (d : String), d ≠ "" →
      pyStartsWith (pyStrip (st.bufferedContent ++ d)) "\x7b" = true →
      (processContentDelta true st d).1.looksLikeJson = true ∧
      (processContentDelta true st d).2 = none) ∧
    (∀ (parse : String → Option JVal) (st : StreamTextState),
      st.looksLikeJson = true →
      (∀ p, parse (pyStrip st.responseContent) = some p →
        isCodeToolCallShape p = false) →
      stopReasonFinalize true parse st =
        [AgentOut.contentDelta st.bufferedContent]) ∧
    (∀ (isOllama : Bool) (parse : String → Option JVal)
       (st : StreamTextState) (p : JVal),
      st.responseContent ≠ "" →
      parse (pyStrip st.responseContent) = some p →
      isCodeToolCallShape p = true →
      stopReasonFinalize isOllama parse st =
        [AgentOut.fallbackToolCallRequest ((jGet p "name").getD JVal.null)
          ((jGet p "arguments").getD JVal.null)]) := by
  have hstep : ∀ (st : StreamTextState) (d : String),
      st.looksLikeJson = true →
      (processContentDelta true st d).1.looksLikeJson = true ∧
      (processContentDelta true st d).2 = none := by
    intro st d h
    unfold processContentDelta
    by_cases hd : d = ""
    · simp [hd, h]
    · simp [hd, h]
  refine ⟨?_, ?_, ?_, ?_⟩
  · intro st ds h
    suffices hgen : ∀ (acc : List String) (st : StreamTextState),
        st.looksLikeJson = true →
        (ds.foldl (fun acc d =>
          let (st', y) := processContentDelta true acc.1 d
          (st', acc.2 ++ y.toList)) (st, acc)).2 = acc by
      exact hgen [] st h
    induction ds with
    | nil => intro acc st _; rfl
    | cons d rest ihd =>
        intro acc st hst
        have hone : (fun (acc : StreamTextState × List String) d =>
            let (st', y) := processContentDelta true acc.1 d
            (st', acc.2 ++ y.toList)) (st, acc) d =
            ((processContentDelta true st d).1,
              acc ++ (processContentDelta true st d).2.toList) := rfl
        simp only [List.foldl_cons, hone, (hstep st d hst).2,
          Option.toList_none, List.append_nil]
        exact ihd acc _ (hstep st d hst).1
  · intro st d hd hpre
    unfold processContentDelta
    simp [hd, hpre]
  · intro parse st hflag hfail
    unfold stopReasonFinalize
    by_cases hrc : st.responseContent = ""
    · simp [hrc, hflag]
    · simp only [ne_eq, hrc, not_false_eq_true, if_true]
      cases hp : parse (pyStrip st.responseContent) with
      | none => simp [hflag]
      | some p => simp [hfail p hp, hflag]
  · intro isOllama parse st p hrc hp hshape
    unfold stopReasonFinalize
    simp [hrc, hp, hshape]

/-- Closed instance of `ollama_buffering_C4`. -/
theorem ollama_buffering_C4_witness :
    (processDeltas true
      { responseContent := "\x7b", bufferedContent := "\x7b",
        looksLikeJson := true } ["a", "b"]).2 = [] ∧
    ((processContentDelta true initTextState "\x7b\"n").1.looksLikeJson
        = true ∧
     (processContentDelta true initTextState "\x7b\"n").2 = none) ∧
    stopReasonFinalize true (fun _ => none)
      { responseContent := "\x7bnot json", bufferedContent := "\x7bnot json",
        looksLikeJson := true } =
      [AgentOut.contentDelta "\x7bnot json"] ∧
    stopReasonFinalize true
      (fun _ => some (JVal.obj [("name", JVal.str "f"),
        ("arguments", JVal.obj [])]))
      { responseContent := "j", bufferedContent := "j",
        looksLikeJson := true } =
      [AgentOut.fallbackToolCallRequest (JVal.str "f") (JVal.obj [])] :=
  ⟨ollama_buffering_C4.1 _ ["a", "b"] rfl,
   ollama_buffering_C4.2.1 initTextState "\x7b\"n" (by decide) (by decide),
   ollama_buffering_C4.2.2.1 (fun _ => none) _ rfl
     (fun p hp => by simp at hp),
   ollama_buffering_C4.2.2.2 true
     (fun _ => some (JVal.obj [("name", JVal.str "f"),
       ("arguments", JVal.obj [])]))
     { responseContent := "j", bufferedContent := "j",
       looksLikeJson := true }
     (JVal.obj [("name", JVal.str "f"), ("arguments", JVal.obj [])])
     (by decide) rfl rfl⟩

/-! ## Model-client stream events and cost calculation

Embeds `get_llm_response_stream` (`backend/llm_client.py` lines 50–103,
equivalently `backend/services/llm.py` lines 78–136): the provider chunks
are forwarded; after the loop the cost is calculated from
`litellm.token_counter` and `litellm.cost_per_token`, defaulting to `0.0`
on any exception; a provider exception yields an error dict instead; and
the `finally` block always appends a `("final_cost", cost)` tuple.
The litellm calls are external; they appear as an explicit oracle. -/

/-- The external token-counting and rate-lookup calls, each of which may
raise (`Except.error`). -/
structure CostOracle where
  tokenCounterMessages : Except String Nat
  tokenCounterText : String → Except String Nat
  costPerToken : Nat → Nat → Except String (ℚ × ℚ)

/-- The post-stream cost calculation (`llm_client.py` lines 71–89).
`responseContent` is the local `response_content`, which the source
initializes to `""` and never updates, so the completion token count is
always the `0` of the `if response_content else 0` guard. -/
def computeStreamCost (o : CostOracle) (responseContent : String) : ℚ :=
  match o.tokenCounterMessages with
  | .error _ => 0
  | .ok p =>
      match (if responseContent ≠ "" then o.tokenCounterText responseContent
             else .ok 0) with
      | .error _ => 0
      | .ok c =>
          match o.costPerToken p c with
          | .error _ => 0
          | .ok (ic, oc) => ic + oc

/-- An oracle whose lookups all succeed with zero rates. -/
def zeroCostOracle : CostOracle :=
  { tokenCounterMessages := .ok 0,
    tokenCounterText := fun _ => .ok 0,
    costPerToken := fun _ _ => .ok (0, 0) }

/-- One provider chunk as consumed by the agent: at most one choice with
an optional finish reason, optional content delta and tool-call
fragments (`chunk.choices[0]`, `choice.delta`). -/
structure Choice where
  finishReason : Option String
  deltaContent : Option String
  deltaToolCalls : List ToolCallFragment
deriving Repr

structure Chunk where
  choice : Option Choice
deriving Repr

/-- Items yielded by `get_llm_response_stream` to `ChatAgent.step`. -/
inductive StreamItem where
| chunkItem (c : Chunk)
| errorItem (content : String)
| finalCostItem (c : ℚ)
deriving Repr

/-- How the provider stream ran: to completion, or raising after a prefix
of chunks. -/
inductive ProviderRun where
| success (chunks : List Chunk)
| failure (prefixChunks : List Chunk) (msg : String)

/-- The full event sequence yielded by `get_llm_response_stream`: chunks,
then (on an exception) the error dict, then — from the `finally` block —
the trailing cost tuple.  On an exception the cost block never runs, so
the trailing cost is the initial `0.0`. -/
def llmClientEvents (run : ProviderRun) (o : CostOracle) : List StreamItem :=
  match run with
  | .success chunks =>
      chunks.map StreamItem.chunkItem ++
        [StreamItem.finalCostItem (computeStreamCost o "")]
  | .failure pre msg =>
      pre.map StreamItem.chunkItem ++
        [StreamItem.errorItem ("LLM Call Error: " ++ msg),
         StreamItem.finalCostItem 0]

/-- The loop-carried state of `ChatAgent.step`
(`backend/agent.py` lines 96–106). -/
structure StepState where
  textState : StreamTextState
  toolMap : ToolMap
  capturedFinishReason : Option String
  errorYielded : Bool
  extractedCost : Option ℚ
  outputs : List AgentOut
deriving Repr

def initStepState : StepState :=
  { textState := initTextState, toolMap := [], capturedFinishReason := none,
    errorYielded := false, extractedCost := none, outputs := [] }

/-- Processing of one provider chunk inside the stream loop
(`agent.py` lines 124–181): capture the finish reason, process the content
delta (live yields go to the caller), accumulate tool-call fragments. -/
def processChunk (isOllama : Bool) (st : StepState) (ch : Chunk) : StepState :=
  match ch.choice with
  | none => st
  | some choice =>
      let st1 := match choice.finishReason with
        | some fr => { st with capturedFinishReason := some fr }
        | none => st
      let st2 := match choice.deltaContent with
        | some d =>
            let r := processContentDelta isOllama st1.textState d
            { st1 with
              textState := r.1
              outputs := st1.outputs ++ (r.2.map AgentOut.contentDelta).toList }
        | none => st1
      { st2 with toolMap := accumFragments st2.toolMap choice.deltaToolCalls }

/-- The stream loop of `ChatAgent.step` (`agent.py` lines 108–181): a
`final_cost` tuple is captured and consumed; an error dict is forwarded
and breaks the loop; anything else is a chunk.  The `stopRequested` check
at the loop head exists in the `backend/core/agent/agent.py` variant
(lines 161–163). -/
def stepLoop (isOllama stopRequested : Bool) :
    StepState → List StreamItem → StepState
  | st, [] => st
  | st, item :: rest =>
      if stopRequested then st
      else
        match item with
        | .finalCostItem c =>
            stepLoop isOllama stopRequested
              { st with extractedCost := some c } rest
        | .errorItem msg =>
            { st with outputs := st.outputs ++ [AgentOut.errorOut msg],
                      errorYielded := true }
        | .chunkItem ch =>
            stepLoop isOllama stopRequested (processChunk isOllama st ch) rest

/-- The finish-reason handling after the loop (`agent.py` lines 190–298),
yield side only (memory appends are the same branches' `add_message_to_memory`
calls). -/
def finishOutputs (isOllama : Bool) (parse : String → Option JVal)
    (st : StepState) : List AgentOut :=
  if st.capturedFinishReason = some "tool_calls" ∧ st.toolMap ≠ [] then
    let valid := finalizeToolCalls st.toolMap
    if valid ≠ [] then [AgentOut.toolCallRequestOut valid]
    else [AgentOut.errorOut "[Agent Error: Inconsistent tool call detected]"]
  else if st.capturedFinishReason = some "stop" then
    stopReasonFinalize isOllama parse st.textState
  else
    [AgentOut.errorOut ("[Agent Error: Stream ended unexpectedly. Reason: "
      ++ st.capturedFinishReason.getD "None" ++ "]")]

/-- The whole of `ChatAgent.step` as a function from the client's event
list to the final loop state, with its ordered yields in `outputs`:
the loop, then (unless an error was forwarded) the finish-reason handling,
then the trailing cost tuple if one was captured (`agent.py` lines
302–306). -/
def chatAgentStep (isOllama stopRequested : Bool)
    (parse : String → Option JVal) (items : List StreamItem) : StepState :=
  let st := stepLoop isOllama stopRequested initStepState items
  let st := if st.errorYielded then st
    else { st with outputs := st.outputs ++ finishOutputs isOllama parse st }
  match st.extractedCost with
  | some c => { st with outputs := st.outputs ++ [AgentOut.finalCostOut c] }
  | none => st

def isErrorItem : StreamItem → Bool
  | .errorItem _ => true
  | _ => false

theorem processChunk_preserves_flags (isOllama : Bool) (st : StepState)
    (ch : Chunk) :
    (processChunk isOllama st ch).errorYielded = st.errorYielded ∧
    (processChunk isOllama st ch).extractedCost = st.extractedCost := by
  obtain ⟨choiceOpt⟩ := ch
  cases choiceOpt with
  | none => exact ⟨rfl, rfl⟩
  | some choice =>
      obtain ⟨fin, dc, dtc⟩ := choice
      cases fin <;> cases dc <;> exact ⟨rfl, rfl⟩

theorem stepLoop_chunks_flags (isOllama : Bool) (chunks : List Chunk) :
    ∀ st : StepState,
    (stepLoop isOllama false st (chunks.map StreamItem.chunkItem)).errorYielded
      = st.errorYielded ∧
    (stepLoop isOllama false st (chunks.map StreamItem.chunkItem)).extractedCost
      = st.extractedCost := by
  induction chunks with
  | nil => intro st; exact ⟨rfl, rfl⟩
  | cons ch rest ih =>
      intro st
      simp only [List.map_cons, stepLoop, Bool.false_eq_true, if_false]
      exact ⟨(ih _).1.trans (processChunk_preserves_flags isOllama st ch).1,
             (ih _).2.trans (processChunk_preserves_flags isOllama st ch).2⟩

theorem stepLoop_append_of_no_error (isOllama : Bool) {l₁ : List StreamItem}
    (l₂ : List StreamItem) (h : ∀ x ∈ l₁, isErrorItem x = false) :
    ∀ st : StepState, stepLoop isOllama false st (l₁ ++ l₂) =
      stepLoop isOllama false (stepLoop isOllama false st l₁) l₂ := by
  induction l₁ with
  | nil => intro st; rfl
  | cons x rest ih =>
      intro st
      cases x with
      | chunkItem ch =>
          simp only [List.cons_append, stepLoop, Bool.false_eq_true, if_false]
          exact ih (fun y hy => h y (List.mem_cons_of_mem _ hy)) _
      | errorItem msg =>
          exact absurd (h _ (List.mem_cons_self _ _)) (by simp [isErrorItem])
      | finalCostItem c =>
          simp only [List.cons_append, stepLoop, Bool.false_eq_true, if_false]
          exact ih (fun y hy => h y (List.mem_cons_of_mem _ hy)) _

/-- **C7.** For every turn, if token counting or per-token rate lookup
fails during cost calculation, the captured cost is exactly `0.0`, the
client stream is indistinguishable from one whose cost is zero (no error
is surfaced for the cost failure), and the agent step still completes
normally, forwarding a trailing cost of `0` to its caller. -/
theorem cost_failure_defaults_zero_C7 (o : CostOracle)
    (hfail : (∃ e, o.tokenCounterMessages = Except.error e) ∨
      (∀ p, o.tokenCounterMessages = Except.ok p →
        ∃ e, o.costPerToken p 0 = Except.error e)) :
    computeStreamCost o "" = 0 ∧
    (∀ chunks, llmClientEvents (ProviderRun.success chunks) o =
      chunks.map StreamItem.chunkItem ++ [StreamItem.finalCostItem 0]) ∧
    (∀ chunks, llmClientEvents (ProviderRun.success chunks) o =
      llmClientEvents (ProviderRun.success chunks) zeroCostOracle) ∧
    (∀ chunks (isOllama : Bool) (parse : String → Option JVal),
      ∃ l, (chatAgentStep isOllama false parse
        (llmClientEvents (ProviderRun.success chunks) o)).outputs =
          l ++ [AgentOut.finalCostOut 0]) := by
  have hzero : computeStreamCost o "" = 0 := by
    unfold computeStreamCost
    rcases hfail with ⟨e, he⟩ | hrate
    · rw [he]
    · cases hm : o.tokenCounterMessages with
      | error e => rfl
      | ok p =>
          obtain ⟨e, he⟩ := hrate p hm
          simp [he]
  have hevents : ∀ chunks, llmClientEvents (ProviderRun.success chunks) o =
      chunks.map StreamItem.chunkItem ++ [StreamItem.finalCostItem 0] := by
    intro chunks
    unfold llmClientEvents
    rw [hzero]
  refine ⟨hzero, hevents, ?_, ?_⟩
  · intro chunks
    rw [hevents chunks]
    unfold llmClientEvents zeroCostOracle computeStreamCost
    norm_num
  · intro chunks isOllama parse
    rw [hevents chunks]
    unfold chatAgentStep
    rw [stepLoop_append_of_no_error isOllama [StreamItem.finalCostItem 0]
      (by intro x hx
          rcases List.mem_map.1 hx with ⟨c, _, rfl⟩
          rfl) initStepState]
    have hflags := stepLoop_chunks_flags isOllama chunks initStepState
    set st1 := stepLoop isOllama false initStepState
      (chunks.map StreamItem.chunkItem) with hst1
    have hlast : stepLoop isOllama false st1 [StreamItem.finalCostItem 0] =
        { st1 with extractedCost := some 0 } := rfl
    rw [hlast]
    have herr : st1.errorYielded = false := hflags.1
    simp only [herr, Bool.false_eq_true, if_false]
    exact ⟨_, rfl⟩

/-- Closed instance of `cost_failure_defaults_zero_C7` for an oracle whose
rate lookup raises. -/
theorem cost_failure_defaults_zero_C7_witness :
    computeStreamCost
      { tokenCounterMessages := Except.ok 12,
        tokenCounterText := fun _ => Except.ok 0,
        costPerToken := fun _ _ =>
          Except.error "This model isn't mapped yet" } "" = 0 ∧
    llmClientEvents (ProviderRun.success [])
      { tokenCounterMessages := Except.ok 12,
        tokenCounterText := fun _ => Except.ok 0,
        costPerToken := fun _ _ =>
          Except.error "This model isn't mapped yet" } =
      [StreamItem.finalCostItem 0] :=
  have h := cost_failure_defaults_zero_C7
    { tokenCounterMessages := Except.ok 12,
      tokenCounterText := fun _ => Except.ok 0,
      costPerToken := fun _ _ => Except.error "This model isn't mapped yet" }
    (Or.inr (fun _ _ => ⟨"This model isn't mapped yet", rfl⟩))
  ⟨h.1, h.2.1 []⟩

/-- **C8 (code bug).** The spec requires the trailing cost marker to reach
the accumulation pipeline's consumer even after an error.  The client does
append `("final_cost", 0.0)` after the error dict, but `ChatAgent.step`
breaks out of its loop on the error dict before consuming it, so no
`final_cost` item is ever forwarded: on the failing input (a provider
error before any chunk), the step's outputs are exactly the error and
contain no cost marker. -/
theorem error_break_drops_cost_marker_C8 :
    llmClientEvents (ProviderRun.failure [] "boom") zeroCostOracle =
      [StreamItem.errorItem "LLM Call Error: boom",
       StreamItem.finalCostItem 0] ∧
    (chatAgentStep false false (fun _ => none)
      (llmClientEvents (ProviderRun.failure [] "boom") zeroCostOracle)).outputs
      = [AgentOut.errorOut "LLM Call Error: boom"] ∧
    ((chatAgentStep false false (fun _ => none)
      (llmClientEvents (ProviderRun.failure [] "boom") zeroCostOracle)).outputs.any
        (fun out => match out with
          | AgentOut.finalCostOut _ => true
          | _ => false)) = false :=
  ⟨rfl, rfl, rfl⟩

/-! ## Tool-result invariant over the conversation log

Embeds the `tool_result` branch of `websocket_endpoint`
(`backend/app/main.py` lines 241–250; `backend/main.py` lines 270–277) and
the invariant of spec §3: every tool-result message's `tool_call_id`
matches a `tool_calls` entry of a strictly earlier assistant message. -/

/-- The tool-call ids offered by one message (nonempty only for assistant
messages). -/
def assistIds (m : Msg) : List String :=
  if m.role == "assistant" then m.tool_calls.map (fun tc => tc.id) else []

/-- All tool-call ids offered by assistant messages of the log. -/
def assistantToolCallIds : List Msg → List String
  | [] => []
  | m :: rest => assistIds m ++ assistantToolCallIds rest

/-- One message's obligation: a tool message must reference an id already
seen in an earlier assistant message. -/
def msgOk (m : Msg) (seen : List String) : Bool :=
  if m.role == "tool" then
    match m.tool_call_id with
    | some tid => seen.contains tid
    | none => false
  else true

/-- The invariant checker, threading the set of ids seen so far. -/
def checkFrom : List Msg → List String → Bool
  | [], _ => true
  | m :: rest, seen => msgOk m seen && checkFrom rest (seen ++ assistIds m)

/-- Spec §3 invariant: every tool-result message's `tool_call_id` matches a
`tool_calls` entry of some strictly earlier assistant message. -/
def checkToolResultInvariant (mem : List Msg) : Bool := checkFrom mem []

/-- The `tool_result` branch: every entry carrying a truthy
`tool_call_id` is appended as a tool message, with no validation against
earlier assistant messages. -/
def handleToolResultBatch (mem : List Msg)
    (results : List (Option String × String)) : List Msg :=
  results.foldl (fun acc r =>
    match r.1 with
    | some tid =>
        if tid ≠ "" then
          addMessageToMemory acc "tool" (some r.2) [] (some tid)
        else acc
    | none => acc) mem

theorem checkFrom_append (l₂ : List Msg) :
    ∀ (l₁ : List Msg) (seen : List String),
    checkFrom (l₁ ++ l₂) seen =
      (checkFrom l₁ seen && checkFrom l₂ (seen ++ assistantToolCallIds l₁)) := by
  intro l₁
  induction l₁ with
  | nil =>
      intro seen
      simp [checkFrom, assistantToolCallIds]
  | cons m rest ih =>
      intro seen
      simp only [List.cons_append, checkFrom, assistantToolCallIds,
        List.append_eq]
      rw [ih (seen ++ assistIds m), List.append_assoc, Bool.and_assoc]

theorem checkFrom_singleton (m : Msg) (seen : List String) :
    checkFrom [m] seen = msgOk m seen := by
  simp [checkFrom]

/-- Appending a non-tool message preserves the invariant checker. -/
theorem checkFrom_append_nontool {m : Msg} (hrole : (m.role == "tool") = false)
    (mem : List Msg) (seen : List String) (h : checkFrom mem seen = true) :
    checkFrom (mem ++ [m]) seen = true := by
  rw [checkFrom_append, h, checkFrom_singleton]
  simp [msgOk, hrole]

/-- Appending a tool message whose id is among the log's assistant
tool-call ids preserves the invariant checker (seeded with `[]`). -/
theorem checkInv_append_tool {mem : List Msg} {tid : String}
    (hin : tid ∈ assistantToolCallIds mem) (content : Option String)
    (h : checkToolResultInvariant mem = true) :
    checkToolResultInvariant
      (mem ++ [{ role := "tool", content := content, tool_calls := [],
                 tool_call_id := some tid }]) = true := by
  unfold checkToolResultInvariant at *
  rw [checkFrom_append, h, checkFrom_singleton]
  simp [msgOk, List.elem_iff, hin]

/-- Ids of an assistant message of the log are among the log's assistant
tool-call ids. -/
theorem mem_assistantToolCallIds {mem : List Msg} {m : Msg}
    (hm : m ∈ mem) (hrole : (m.role == "assistant") = true)
    {tc : ToolCallRequest} (htc : tc ∈ m.tool_calls) :
    tc.id ∈ assistantToolCallIds mem := by
  induction mem with
  | nil => exact absurd hm (List.not_mem_nil _)
  | cons m0 rest ih =>
      simp only [assistantToolCallIds, List.mem_append]
      rcases List.mem_cons.1 hm with rfl | hm'
      · left
        simp only [assistIds, hrole, if_true]
        exact List.mem_map.2 ⟨tc, htc, rfl⟩
      · right
        exact ih hm'

theorem addMessage_eq_append (mem : List Msg) (role : String)
    (content : Option String) (toolCalls : List ToolCallRequest)
    (toolCallId : Option String) :
    addMessageToMemory mem role content toolCalls toolCallId =
      mem ++ [{ role := role,
                content := if toolCallId.isSome ∧ content = none then some ""
                  else content,
                tool_calls := toolCalls, tool_call_id := toolCallId }] := rfl

/-- The cancellation synthesis only appends tool messages whose ids come
from the log's assistant messages. -/
theorem synthCancellations_decomp (mem : List Msg) :
    ∃ l, synthCancellations mem = mem ++ l ∧
      ∀ m ∈ l, m.role = "tool" ∧
        ∃ tid, m.tool_call_id = some tid ∧ tid ∈ assistantToolCallIds mem := by
  unfold synthCancellations
  cases hfind : lastAssistantWithToolCalls mem with
  | none => exact ⟨[], by simp, fun m hm => absurd hm (List.not_mem_nil _)⟩
  | some amsg =>
      have hfind' : mem.reverse.find?
          (fun m => m.role == "assistant" && !m.tool_calls.isEmpty) =
            some amsg := hfind
      have hmem : amsg ∈ mem :=
        List.mem_reverse.1 (List.mem_of_find?_eq_some hfind')
      have hrole : (amsg.role == "assistant") = true := by
        have h := List.find?_some hfind'
        simp only [Bool.and_eq_true] at h
        exact h.1
      have hids : ∀ tc ∈ amsg.tool_calls, tc.id ∈ assistantToolCallIds mem :=
        fun tc htc => mem_assistantToolCallIds hmem hrole htc
      suffices hfold : ∀ (tcs : List ToolCallRequest) (start : List Msg),
          (∀ tc ∈ tcs, tc.id ∈ assistantToolCallIds mem) →
          ∃ l, tcs.foldl (fun acc tc =>
            if hasToolResult acc tc.id then acc
            else addMessageToMemory acc "tool" (some cancellationContent) []
              (some tc.id)) start = start ++ l ∧
          ∀ m ∈ l, m.role = "tool" ∧
            ∃ tid, m.tool_call_id = some tid ∧
              tid ∈ assistantToolCallIds mem by
        exact hfold amsg.tool_calls mem hids
      intro tcs
      induction tcs with
      | nil =>
          intro start _
          exact ⟨[], by simp, fun m hm => absurd hm (List.not_mem_nil _)⟩
      | cons tc rest ih =>
          intro start hall
          simp only [List.foldl_cons]
          by_cases htr : hasToolResult start tc.id = true
          · rw [if_pos htr]
            exact ih start (fun t ht => hall t (List.mem_cons_of_mem _ ht))
          · rw [if_neg htr, addMessage_eq_append]
            simp only [Option.isSome_some, true_and]
            rw [if_neg (Option.some_ne_none cancellationContent)]
            obtain ⟨l', hl', hp'⟩ := ih
              (start ++
                [{ role := "tool", content := some cancellationContent,
                   tool_calls := [], tool_call_id := some tc.id }])
              (fun t ht => hall t (List.mem_cons_of_mem _ ht))
            refine ⟨{ role := "tool", content := some cancellationContent,
                      tool_calls := [],
                      tool_call_id := some tc.id } :: l', ?_, ?_⟩
            · rw [hl', List.append_assoc]
              rfl
            · intro m hm
              rcases List.mem_cons.1 hm with rfl | hm'
              · exact ⟨rfl, tc.id, rfl,
                  hall tc (List.mem_cons_self _ _)⟩
              · exact hp' m hm'

/-- Appending a batch of tool messages whose ids are all assistant
tool-call ids of the log preserves the invariant. -/
theorem checkInv_append_toolList {mem : List Msg} {l : List Msg}
    (hinv : checkToolResultInvariant mem = true)
    (hl : ∀ m ∈ l, m.role = "tool" ∧
      ∃ tid, m.tool_call_id = some tid ∧ tid ∈ assistantToolCallIds mem) :
    checkToolResultInvariant (mem ++ l) = true := by
  unfold checkToolResultInvariant at *
  rw [checkFrom_append, hinv]
  simp only [Bool.true_and, List.nil_append]
  induction l with
  | nil => rfl
  | cons m rest ih =>
      obtain ⟨hrole, tid, htid, hin⟩ := hl m (List.mem_cons_self _ _)
      have hok : msgOk m (assistantToolCallIds mem) = true := by
        simp [msgOk, hrole, htid, List.elem_iff, hin]
      have hassist : assistIds m = [] := by
        simp [assistIds, hrole]
      simp only [checkFrom, hok, Bool.true_and, hassist, List.append_nil]
      exact ih (fun t ht => hl t (List.mem_cons_of_mem _ ht))

/-- The memory-append transitions performed by the engine and its
handlers, with the guards the source establishes at each call site:
a client/server tool result is recorded only for an id offered by an
assistant message already in the log (the amended reading of C3), and
cancellation synthesis is the stop-checkpoint code itself. -/
inductive EngineStep : List Msg → List Msg → Prop where
| userMsg : ∀ (mem : List Msg) (text : String),
    EngineStep mem (addMessageToMemory mem "user" (some text) [] none)
| assistantContent : ∀ (mem : List Msg) (c : Option String),
    EngineStep mem (addMessageToMemory mem "assistant" c [] none)
| assistantToolCalls : ∀ (mem : List Msg) (calls : List ToolCallRequest),
    EngineStep mem (addMessageToMemory mem "assistant" none calls none)
| toolResult : ∀ (mem : List Msg) (tid : String) (content : String),
    tid ∈ assistantToolCallIds mem →
    EngineStep mem (addMessageToMemory mem "tool" (some content) [] (some tid))
| cancelUnanswered : ∀ mem : List Msg,
    EngineStep mem (synthCancellations mem)

theorem engineStep_preserves {mem mem' : List Msg} (h : EngineStep mem mem')
    (hinv : checkToolResultInvariant mem = true) :
    checkToolResultInvariant mem' = true := by
  cases h with
  | userMsg text =>
      rw [addMessage_eq_append]
      refine checkFrom_append_nontool ?_ mem [] hinv
      rfl
  | assistantContent c =>
      rw [addMessage_eq_append]
      refine checkFrom_append_nontool ?_ mem [] hinv
      rfl
  | assistantToolCalls calls =>
      rw [addMessage_eq_append]
      refine checkFrom_append_nontool ?_ mem [] hinv
      rfl
  | toolResult tid content hin =>
      rw [addMessage_eq_append]
      simp only [Option.isSome_some, Option.some_ne_none, and_false,
        if_false, true_and]
      exact checkInv_append_tool hin (some content) hinv
  | cancelUnanswered =>
      obtain ⟨l, heq, hp⟩ := synthCancellations_decomp mem
      rw [heq]
      exact checkInv_append_toolList hinv hp

/-- **C3 (counterexample).** The claim says the invariant holds after any
sequence of external inputs; but the `tool_result` handler appends a tool
message for whatever `tool_call_id` the client supplies, with no check
against earlier assistant messages, so a single fabricated `tool_result`
violates the invariant. -/
theorem toolresult_invariant_C3_counterexample :
    checkToolResultInvariant
      [{ role := "system", content := some "sys", tool_calls := [],
         tool_call_id := none }] = true ∧
    handleToolResultBatch
      [{ role := "system", content := some "sys", tool_calls := [],
         tool_call_id := none }] [(some "bogus", "fabricated")] =
      [{ role := "system", content := some "sys", tool_calls := [],
         tool_call_id := none },
       { role := "tool", content := some "fabricated", tool_calls := [],
         tool_call_id := some "bogus" }] ∧
    checkToolResultInvariant
      (handleToolResultBatch
        [{ role := "system", content := some "sys", tool_calls := [],
           tool_call_id := none }] [(some "bogus", "fabricated")]) = false :=
  ⟨rfl, rfl, rfl⟩

/-- **C3 (amended).** Every memory append the engine itself performs —
user and assistant messages, tool results recorded for an id offered by an
earlier assistant message (server tool results, ask_user answers, and
client tool-results that reference a dispatched id), and stop-checkpoint
cancellation synthesis — preserves the invariant that every tool-result
message's `tool_call_id` matches a `tool_calls` entry of a strictly
earlier assistant message; so the invariant holds after any sequence of
such steps, including after a cancellation.  The `tool_result` handler
itself performs no validation, so the invariant can be broken by a
client-supplied id (see the counterexample). -/
theorem toolresult_invariant_preserved_C3 (mem mem' : List Msg)
    (hreach : Relation.ReflTransGen EngineStep mem mem')
    (hinv : checkToolResultInvariant mem = true) :
    checkToolResultInvariant mem' = true := by
  induction hreach with
  | refl => exact hinv
  | tail _ hstep ih => exact engineStep_preserves hstep ih

/-- Closed instance of `toolresult_invariant_preserved_C3`: an assistant
tool-call message, its tool result, and a cancellation pass. -/
theorem toolresult_invariant_preserved_C3_witness :
    checkToolResultInvariant
      (synthCancellations
        (addMessageToMemory
          (addMessageToMemory []
            "assistant" none [{ id := "id1", name := "run_bash_command",
                                arguments := "" }] none)
          "tool" (some "file1") [] (some "id1"))) = true :=
  toolresult_invariant_preserved_C3 [] _
    (Relation.ReflTransGen.tail
      (Relation.ReflTransGen.tail
        (Relation.ReflTransGen.single
          (EngineStep.assistantToolCalls []
            [{ id := "id1", name := "run_bash_command", arguments := "" }]))
        (EngineStep.toolResult _ "id1" "file1" (by decide)))
      (EngineStep.cancelUnanswered _))
    rfl

/-! ## Client-tool wait loop and the denial short-circuit

Embeds the wait loop of `run_agent_step_and_send`
(`backend/app/websocket/handler.py` lines 196–222): each incoming
`tool_result` entry whose id is still pending is appended to memory and
removed from `pending_tool_calls`; if its content contains the substring
`"User denied execution"`, the handler immediately triggers the next agent
step and returns, leaving the remaining entries unprocessed and the
remaining pending ids unanswered. -/

/-- `needle in haystack` on character lists. -/
def listIsInfixOf (needle : List Char) : List Char → Bool
  | [] => needle.isEmpty
  | c :: cs => needle.isPrefixOf (c :: cs) || listIsInfixOf needle cs

/-- Python's `sub in s` substring test. -/
def pyContains (s sub : String) : Bool :=
  listIsInfixOf sub.data s.data

def deniedSentinel : String := "User denied execution"

/-- Processing of one `tool_result` batch inside the wait loop.  Returns
the new memory, the still-pending ids, and whether the denial branch
triggered the next agent step (`True` models the immediate nested
`run_agent_step_and_send` call and `return`). -/
def processToolResults (mem : List Msg) (pending : List String) :
    List (Option String × String) → List Msg × List String × Bool
  | [] => (mem, pending, false)
  | r :: rest =>
      match r.1 with
      | some tid =>
          if pending.contains tid then
            let mem' := addMessageToMemory mem "tool" (some r.2) [] (some tid)
            let pending' := pending.erase tid
            if pyContains r.2 deniedSentinel then (mem', pending', true)
            else processToolResults mem' pending' rest
          else processToolResults mem pending rest
      | none => processToolResults mem pending rest

/-- **C9.** While the engine is suspended waiting for a batch of
client-executed tool results, receipt of a `tool_result` whose content
contains `"User denied execution"` immediately triggers the next model
step and returns from the wait, even when other tool calls from the same
dispatched batch are still outstanding; those sibling tool calls are left
without any tool-result message in that path: the remaining entries of the
batch are not processed, the remaining pending ids stay pending, and no
tool-result message for them is appended. -/
theorem denial_triggers_immediate_step_C9 (mem : List Msg)
    (pending : List String) (tid : String) (content : String)
    (rest : List (Option String × String))
    (hmatch : pending.contains tid = true)
    (hdenied : pyContains content deniedSentinel = true) :
    processToolResults mem pending ((some tid, content) :: rest) =
      (addMessageToMemory mem "tool" (some content) [] (some tid),
       pending.erase tid, true) ∧
    (∀ tid', tid' ≠ tid → hasToolResult mem tid' = false →
      hasToolResult
        (processToolResults mem pending ((some tid, content) :: rest)).1 tid'
        = false) := by
  have heq : processToolResults mem pending ((some tid, content) :: rest) =
      (addMessageToMemory mem "tool" (some content) [] (some tid),
       pending.erase tid, true) := by
    unfold processToolResults
    simp only [hmatch, hdenied, if_true]
  refine ⟨heq, ?_⟩
  intro tid' hne hno
  rw [heq]
  show hasToolResult
    (addMessageToMemory mem "tool" (some content) [] (some tid)) tid' = false
  rw [addMessage_eq_append]
  simp only [hasToolResult, List.any_append, Bool.or_eq_false_iff]
  refine ⟨hno, ?_⟩
  simp only [List.any_cons, List.any_nil, Bool.or_false]
  have hne' : ¬tid = tid' := fun h => hne h.symm
  simp [hne']

/-- Closed instance of `denial_triggers_immediate_step_C9`: a batch of two
dispatched calls; the denial for the first triggers the step while the
second is still pending and unanswered. -/
theorem denial_triggers_immediate_step_C9_witness :
    processToolResults
      [{ role := "assistant", content := none,
         tool_calls := [{ id := "c1", name := "run_bash_command",
                          arguments := "" },
                        { id := "c2", name := "read_file",
                          arguments := "" }], tool_call_id := none }]
      ["c1", "c2"]
      [(some "c1", "User denied execution of the command."),
       (some "c2", "file contents")] =
      (addMessageToMemory
        [{ role := "assistant", content := none,
           tool_calls := [{ id := "c1", name := "run_bash_command",
                            arguments := "" },
                          { id := "c2", name := "read_file",
                            arguments := "" }], tool_call_id := none }]
        "tool" (some "User denied execution of the command.") [] (some "c1"),
       ["c2"], true) ∧
    hasToolResult
      (processToolResults
        [{ role := "assistant", content := none,
           tool_calls := [{ id := "c1", name := "run_bash_command",
                            arguments := "" },
                          { id := "c2", name := "read_file",
                            arguments := "" }], tool_call_id := none }]
        ["c1", "c2"]
        [(some "c1", "User denied execution of the command."),
         (some "c2", "file contents")]).1 "c2" = false :=
  have h := denial_triggers_immediate_step_C9
    [{ role := "assistant", content := none,
       tool_calls := [{ id := "c1", name := "run_bash_command",
                        arguments := "" },
                      { id := "c2", name := "read_file",
                        arguments := "" }], tool_call_id := none }]
    ["c1", "c2"] "c1" "User denied execution of the command."
    [(some "c2", "file contents")] (by decide) (by decide)
  ⟨h.1, h.2 "c2" (by decide) (by decide)⟩

end Godmode
